import Mathlib

/-!
Shallow embedding of the streaming aggregation engine of the
`power-aware-module` repository (service `data-exporter`, file
`src/data_product_listener.rs`), together with proofs of the spec's claims
about it.

Modelling conventions:
* `f64` sample values are embedded as exact rationals (`ℚ`); all values the
  claims mention are exactly representable, and the code performs only
  addition, comparison and one division on them.
* The special IEEE outcomes that the reducers can produce (NaN from `0.0/0.0`,
  and the finite sentinels `f64::MIN` / `f64::MAX`) are made explicit in the
  result type `FVal`.
* A Rust `panic!` (every `.unwrap()` on a protobuf `Option` field) is embedded
  as `Option.none` of the surrounding operation: `none` means the process
  aborts at that point.
* `HashMap` is embedded as an association list without duplicate keys;
  `entry(..).or_insert(..)` replaces in place when the key is present and
  appends when it is absent, and `insert` on a missing key appends.
-/

/-- Result type of the `Bucket` reducers: a finite double (an exact rational),
NaN, or one of the two infinities.  Only these four cases can arise from the
code's reducers. -/
inductive FVal where
  | fin : ℚ → FVal
  | nan : FVal
  | pinf : FVal
  | ninf : FVal
deriving DecidableEq

/-- Embedding of `f64::MIN`, the least finite double: `-(2^1024 - 2^971)`.  This is the
initial accumulator of `Bucket::peak`'s fold; it is a finite value, not
negative infinity. -/
def f64MIN : ℚ := -(2 ^ 1024 - 2 ^ 971)

/-- Embedding of `f64::MAX`, the greatest finite double: `2^1024 - 2^971`.  Initial
accumulator of `Bucket::trough`'s fold. -/
def f64MAX : ℚ := 2 ^ 1024 - 2 ^ 971

/-- IEEE double division restricted to the cases the code can reach: a
nonzero denominator divides exactly; `0/0` is NaN; `x/0` with `x ≠ 0` is a
signed infinity. -/
def fdiv (x y : ℚ) : FVal :=
  if y = 0 then
    if x = 0 then FVal.nan else if 0 < x then FVal.pinf else FVal.ninf
  else FVal.fin (x / y)

/-- Embedding of `Bucket` from `data_product_listener.rs`: a `VecDeque<f64>` together with
its fixed allocation capacity.  `Bucket::default()` allocates capacity
`60 * 5 = 300`. -/
structure Bucket where
  cap : ℕ
  values : List ℚ
deriving DecidableEq

/-- A bucket with the given capacity and no samples yet. -/
def Bucket.mkEmpty (cap : ℕ) : Bucket := ⟨cap, []⟩

/-- Embedding of `Bucket::default()`: empty, capacity `60 * 5` (assuming 60 Hz samples). -/
def Bucket.default : Bucket := Bucket.mkEmpty (60 * 5)

/-- Embedding of `Bucket::apply`: if the deque is at capacity, pop the oldest sample, then
push the new one at the back. -/
def Bucket.apply (b : Bucket) (val : ℚ) : Bucket :=
  if b.values.length = b.cap then ⟨b.cap, b.values.tail ++ [val]⟩
  else ⟨b.cap, b.values ++ [val]⟩

/-- Embedding of `Bucket::peak`: fold starting from `f64::MIN`, keeping the larger value.
With finite samples the result is always finite. -/
def Bucket.peak (b : Bucket) : FVal :=
  FVal.fin (b.values.foldl (fun acc v => if acc < v then v else acc) f64MIN)

/-- Embedding of `Bucket::trough`: fold starting from `f64::MAX`, keeping the smaller
value. -/
def Bucket.trough (b : Bucket) : FVal :=
  FVal.fin (b.values.foldl (fun acc v => if v < acc then v else acc) f64MAX)

/-- Embedding of `Bucket::average`: sum of the samples divided by their count, as IEEE
division — on an empty bucket this is `0.0 / 0.0`, i.e. NaN. -/
def Bucket.average (b : Bucket) : FVal :=
  fdiv (b.values.sum) (b.values.length : ℚ)

/-- Embedding of `Bucket::latest`: the last sample, or `f64::default()` (`0.0`) when the
bucket has never been pushed to (`last().unwrap_or_default()`). -/
def Bucket.latest (b : Bucket) : ℚ :=
  b.values.getLast?.getD 0

/-- Push a whole list of samples, oldest first. -/
def Bucket.pushAll (b : Bucket) (vs : List ℚ) : Bucket :=
  vs.foldl Bucket.apply b

/-!
## Decoded-entry data model

Embeds the protobuf messages as used by `data_product_listener.rs`.  Message
sub-fields that the code accesses through `.unwrap()` are `Option`s; scalar
fields accessed through prost getters (`real_power_w()`, `rms()`, ...) are
plain rationals.
-/

/-- Waveform calculation message: the fields read through the `dc_offset()`
and `rms()` getters. -/
structure WaveformCalculations where
  dc_offset : ℚ
  rms : ℚ
deriving DecidableEq

/-- Power calculation message: the fields read through the power getters. -/
structure PowerCalculations where
  real_power_w : ℚ
  apparent_power_va : ℚ
  reactive_power_var : ℚ
  power_factor : ℚ
deriving DecidableEq

/-- Embedding of `CompositeCalculations`: one phase's calculation product.  The three
sub-messages are optional on the wire and the code unwraps them. -/
structure CompositeCalculations where
  current_waveform_calculations_a : Option WaveformCalculations
  voltage_waveform_calculations_v : Option WaveformCalculations
  power_calculations : Option PowerCalculations
deriving DecidableEq

/-- Embedding of `CompositeTwoPhaseCalculations`: the two-phase variant's payload, with
both phases optional on the wire. -/
structure CompositeTwoPhaseCalculations where
  phase_a : Option CompositeCalculations
  phase_b : Option CompositeCalculations
deriving DecidableEq

/-- Embedding of `composite_joined_calculations_wrapper::DataProduct`.  The code matches
only the `Calculations` variant; `other` stands for every remaining variant
of the generated oneof (recognized-but-ignored by the listener; their
contents never matter because the wildcard arm ignores them). -/
inductive DataProduct where
  | calculations : CompositeTwoPhaseCalculations → DataProduct
  | other : DataProduct
deriving DecidableEq

/-- One element of `CompositeJoinedCalculations.calculations`: a named entry
with an optional data product. -/
structure Composite where
  calculation_name : Option String
  data_product : Option DataProduct
deriving DecidableEq

/-!
## Measurement registry
-/

/-- Embedding of `MeasurementBuckets`: the nine per-phase channel buckets. -/
structure MeasurementBuckets where
  real_power : Bucket
  rms_current : Bucket
  rms_voltage : Bucket
  apparent_power : Bucket
  active_power : Bucket
  reactive_power : Bucket
  power_factor : Bucket
  dc_offset_current : Bucket
  dc_offset_voltage : Bucket
deriving DecidableEq

/-- Embedding of `MeasurementBuckets::default()`: nine empty default buckets. -/
def MeasurementBuckets.default : MeasurementBuckets :=
  ⟨Bucket.default, Bucket.default, Bucket.default, Bucket.default,
   Bucket.default, Bucket.default, Bucket.default, Bucket.default,
   Bucket.default⟩

/-- Embedding of `MeasurementBuckets::apply`: unwraps the three sub-messages (a missing
one panics, i.e. yields `none`) and pushes each scalar into its channel
bucket; `real_power_w` is pushed into both `real_power` and `active_power`. -/
def MeasurementBuckets.apply (m : MeasurementBuckets)
    (calcs : CompositeCalculations) : Option MeasurementBuckets := do
  let cw ← calcs.current_waveform_calculations_a
  let vw ← calcs.voltage_waveform_calculations_v
  let pw ← calcs.power_calculations
  pure { m with
    dc_offset_current := m.dc_offset_current.apply cw.dc_offset
    rms_current := m.rms_current.apply cw.rms
    dc_offset_voltage := m.dc_offset_voltage.apply vw.dc_offset
    rms_voltage := m.rms_voltage.apply vw.rms
    apparent_power := m.apparent_power.apply pw.apparent_power_va
    power_factor := m.power_factor.apply pw.power_factor
    reactive_power := m.reactive_power.apply pw.reactive_power_var
    real_power := m.real_power.apply pw.real_power_w
    active_power := m.active_power.apply pw.real_power_w }

/-- The per-bucket statistics `MeasurementBuckets::update` publishes to the
gauges for one channel. -/
structure BucketSnapshot where
  average : FVal
  latest : ℚ
  peak : FVal
  trough : FVal
deriving DecidableEq

/-- The four reducer values of one bucket, as set on the four gauges. -/
def Bucket.snapshot (b : Bucket) : BucketSnapshot :=
  ⟨b.average, b.latest, b.peak, b.trough⟩

/-- All statistics one `MeasurementBuckets::update` call exports for one
(stream, phase) label pair. -/
structure MeasurementSnapshot where
  real_power : BucketSnapshot
  rms_current : BucketSnapshot
  rms_voltage : BucketSnapshot
  apparent_power : BucketSnapshot
  active_power : BucketSnapshot
  reactive_power : BucketSnapshot
  power_factor : BucketSnapshot
  dc_offset_current : BucketSnapshot
  dc_offset_voltage : BucketSnapshot
deriving DecidableEq

/-- Embedding of `MeasurementBuckets::update`: read-only; publishes every bucket's four
reducers.  Embedded as the record of published values. -/
def MeasurementBuckets.snapshot (m : MeasurementBuckets) : MeasurementSnapshot :=
  ⟨m.real_power.snapshot, m.rms_current.snapshot, m.rms_voltage.snapshot,
   m.apparent_power.snapshot, m.active_power.snapshot,
   m.reactive_power.snapshot, m.power_factor.snapshot,
   m.dc_offset_current.snapshot, m.dc_offset_voltage.snapshot⟩

/-- Embedding of `ConjoinedMeasurements`: the phase-A and phase-B channel sets of one
stream. -/
structure ConjoinedMeasurements where
  phase_a : MeasurementBuckets
  phase_b : MeasurementBuckets
deriving DecidableEq

/-- Embedding of `ConjoinedMeasurements::default()`. -/
def ConjoinedMeasurements.default : ConjoinedMeasurements :=
  ⟨MeasurementBuckets.default, MeasurementBuckets.default⟩

/-- Embedding of `ConjoinedMeasurements::apply`: unwraps `phase_a` and `phase_b` (a
missing phase panics, i.e. `none`) and forwards each to its channel set. -/
def ConjoinedMeasurements.apply (cm : ConjoinedMeasurements)
    (calcs : CompositeTwoPhaseCalculations) : Option ConjoinedMeasurements := do
  let pa ← calcs.phase_a
  let a ← cm.phase_a.apply pa
  let pb ← calcs.phase_b
  let b ← cm.phase_b.apply pb
  pure ⟨a, b⟩

/-- Embedding of `ConjoinedMeasurements::update`: read-only; publishes both phases'
statistics under labels `(name, a)` and `(name, b)`. -/
def ConjoinedMeasurements.snapshot (cm : ConjoinedMeasurements) :
    MeasurementSnapshot × MeasurementSnapshot :=
  (cm.phase_a.snapshot, cm.phase_b.snapshot)

/-- Association-list lookup, the embedding of `HashMap::get`. -/
def alookup {β : Type} : List (String × β) → String → Option β
  | [], _ => none
  | (k, v) :: rest, name => if k = name then some v else alookup rest name

/-- Replace the value stored at a present key, or append a binding for an
absent one: the embedding of both `HashMap::insert` on a fresh key and of
mutation through `entry(..).or_insert(..)`. -/
def ainsert {β : Type} : List (String × β) → String → β → List (String × β)
  | [], name, v => [(name, v)]
  | (k, w) :: rest, name, v =>
      if k = name then (k, v) :: rest else (k, w) :: ainsert rest name v

/-- Embedding of `AllMeasurements`: the registry mapping stream names to their pair of
channel sets. -/
structure AllMeasurements where
  data : List (String × ConjoinedMeasurements)
deriving DecidableEq

/-- Embedding of `AllMeasurements::new()`. -/
def AllMeasurements.new : AllMeasurements := ⟨[]⟩

/-- The stream names currently present in the registry. -/
def AllMeasurements.names (ms : AllMeasurements) : List String :=
  ms.data.map Prod.fst

/-- Embedding of `AllMeasurements::apply`: a non-`Calculations` product is a no-op;
otherwise look up or lazily create the entry for `name` and apply the
payload to it (propagating a panic as `none`). -/
def AllMeasurements.apply (ms : AllMeasurements) (name : String)
    (product : DataProduct) : Option AllMeasurements :=
  match product with
  | DataProduct.other => some ms
  | DataProduct.calculations calcs =>
      match ((alookup ms.data name).getD ConjoinedMeasurements.default).apply calcs with
      | none => none
      | some cm => some ⟨ainsert ms.data name cm⟩

/-- Embedding of `AllMeasurements::update`: on a missing name, insert a default (empty)
entry and export nothing; on a present name, export its snapshot and leave
the state unchanged. -/
def AllMeasurements.update (ms : AllMeasurements) (name : String) :
    AllMeasurements × Option (MeasurementSnapshot × MeasurementSnapshot) :=
  match alookup ms.data name with
  | none => (⟨ainsert ms.data name ConjoinedMeasurements.default⟩, none)
  | some cm => (ms, some cm.snapshot)

/-!
## Three-phase rollup and frame dispatch loop
-/

/-- Embedding of `ThreePhaseMeasurements`: the four rollup buckets. -/
structure ThreePhaseMeasurements where
  three_phase_real_a : Bucket
  three_phase_real_b : Bucket
  three_phase_reactive_a : Bucket
  three_phase_reactive_b : Bucket
deriving DecidableEq

/-- Embedding of `ThreePhaseMeasurements::default()`. -/
def ThreePhaseMeasurements.default : ThreePhaseMeasurements :=
  ⟨Bucket.default, Bucket.default, Bucket.default, Bucket.default⟩

/-- Embedding of `ThreePhaseMeasurements::apply`: one push into each of the four rollup
buckets. -/
def ThreePhaseMeasurements.apply (m : ThreePhaseMeasurements)
    (real_a reactive_a real_b reactive_b : ℚ) : ThreePhaseMeasurements :=
  ⟨m.three_phase_real_a.apply real_a,
   m.three_phase_real_b.apply real_b,
   m.three_phase_reactive_a.apply reactive_a,
   m.three_phase_reactive_b.apply reactive_b⟩

/-- Embedding of `AllThreePhase`: the rollup state, a map from rollup key to the four
buckets. -/
structure AllThreePhase where
  map : List (String × ThreePhaseMeasurements)
deriving DecidableEq

/-- Embedding of `AllThreePhase::default()`. -/
def AllThreePhase.default : AllThreePhase := ⟨[]⟩

/-- Embedding of `AllThreePhase::apply_and_update`: look up or lazily create the rollup
entry for `name`, push the four frame totals, then publish its gauges
(read-only, not modelled as state). -/
def AllThreePhase.apply_and_update (tp : AllThreePhase) (name : String)
    (real_a reactive_a real_b reactive_b : ℚ) : AllThreePhase :=
  ⟨ainsert tp.map name
    (((alookup tp.map name).getD ThreePhaseMeasurements.default).apply
      real_a reactive_a real_b reactive_b)⟩

/-- The four per-frame running totals of the listen loop. -/
structure FrameSums where
  active_a : ℚ
  reactive_a : ℚ
  active_b : ℚ
  reactive_b : ℚ
deriving DecidableEq

/-- All four totals start at `0.0` when a frame arrives. -/
def FrameSums.zero : FrameSums := ⟨0, 0, 0, 0⟩

/-- The body of `listen`'s per-entry loop: apply the entry to the registry,
update the gauges for its name, and fold its two-phase power values into the
frame totals.  Every `.unwrap()` of a missing field is a panic (`none`). -/
def processEntry (ms : AllMeasurements) (s : FrameSums) (c : Composite) :
    Option (AllMeasurements × FrameSums) := do
  let name ← c.calculation_name
  let dp ← c.data_product
  let ms1 ← ms.apply name dp
  let ms2 := (ms1.update (c.calculation_name.getD "")).1
  match dp with
  | DataProduct.other => pure (ms2, s)
  | DataProduct.calculations calcs => do
      let pa ← calcs.phase_a
      let pwa ← pa.power_calculations
      let pb ← calcs.phase_b
      let pwb ← pb.power_calculations
      pure (ms2,
        ⟨s.active_a + pwa.real_power_w,
         s.reactive_a + pwa.reactive_power_var,
         s.active_b + pwb.real_power_w,
         s.reactive_b + pwb.reactive_power_var⟩)

/-- One iteration of `listen`'s frame loop: fold every entry through
`processEntry` starting from zero totals, then call `apply_and_update` once
with the subscription topic as the rollup key. -/
def processFrame (sub : String) (ms : AllMeasurements) (tp : AllThreePhase)
    (entries : List Composite) : Option (AllMeasurements × AllThreePhase) := do
  let r ← entries.foldlM (fun (p : AllMeasurements × FrameSums) c =>
    processEntry p.1 p.2 c) (ms, FrameSums.zero)
  pure (r.1, tp.apply_and_update sub r.2.active_a r.2.reactive_a
    r.2.active_b r.2.reactive_b)

/-- The whole listen loop over a list of decoded frames. -/
def processFrames (sub : String) (ms : AllMeasurements) (tp : AllThreePhase)
    (frames : List (List Composite)) :
    Option (AllMeasurements × AllThreePhase) :=
  match frames with
  | [] => some (ms, tp)
  | f :: rest => do
      let r ← processFrame sub ms tp f
      processFrames sub r.1 r.2 rest

/-!
## Well-formed entries and frame-wide power sums
-/

/-- A phase payload with all three sub-messages present, so that
`MeasurementBuckets::apply` does not panic on it. -/
def wfCalc (c : CompositeCalculations) : Bool :=
  c.current_waveform_calculations_a.isSome &&
  c.voltage_waveform_calculations_v.isSome &&
  c.power_calculations.isSome

/-- A fully populated two-phase entry: name present, payload the two-phase
variant, both phases present with all sub-messages.  Exactly the entries the
listen loop can process without panicking. -/
def wfEntry (e : Composite) : Bool :=
  e.calculation_name.isSome &&
  match e.data_product with
  | some (DataProduct.calculations tc) =>
      match tc.phase_a, tc.phase_b with
      | some pa, some pb => wfCalc pa && wfCalc pb
      | _, _ => false
  | _ => false

/-- Phase-A real power of one entry, `0` when any field on the path is
missing. -/
def entryRealA (e : Composite) : ℚ :=
  match e.data_product with
  | some (DataProduct.calculations tc) =>
      match tc.phase_a with
      | some pa =>
          match pa.power_calculations with
          | some pw => pw.real_power_w
          | none => 0
      | none => 0
  | _ => 0

/-- Phase-A reactive power of one entry. -/
def entryReactiveA (e : Composite) : ℚ :=
  match e.data_product with
  | some (DataProduct.calculations tc) =>
      match tc.phase_a with
      | some pa =>
          match pa.power_calculations with
          | some pw => pw.reactive_power_var
          | none => 0
      | none => 0
  | _ => 0

/-- Phase-B real power of one entry. -/
def entryRealB (e : Composite) : ℚ :=
  match e.data_product with
  | some (DataProduct.calculations tc) =>
      match tc.phase_b with
      | some pb =>
          match pb.power_calculations with
          | some pw => pw.real_power_w
          | none => 0
      | none => 0
  | _ => 0

/-- Phase-B reactive power of one entry. -/
def entryReactiveB (e : Composite) : ℚ :=
  match e.data_product with
  | some (DataProduct.calculations tc) =>
      match tc.phase_b with
      | some pb =>
          match pb.power_calculations with
          | some pw => pw.reactive_power_var
          | none => 0
      | none => 0
  | _ => 0

/-- Frame-wide sum of phase-A real power over all entries. -/
def frameRealA (entries : List Composite) : ℚ := (entries.map entryRealA).sum

/-- Frame-wide sum of phase-A reactive power over all entries. -/
def frameReactiveA (entries : List Composite) : ℚ :=
  (entries.map entryReactiveA).sum

/-- Frame-wide sum of phase-B real power over all entries. -/
def frameRealB (entries : List Composite) : ℚ := (entries.map entryRealB).sum

/-- Frame-wide sum of phase-B reactive power over all entries. -/
def frameReactiveB (entries : List Composite) : ℚ :=
  (entries.map entryReactiveB).sum

/-- Phase-A/phase-B channel sets both empty: the shape of a never-populated
registry entry. -/
def MeasurementBuckets.allEmpty (m : MeasurementBuckets) : Bool :=
  m.real_power.values.isEmpty && m.rms_current.values.isEmpty &&
  m.rms_voltage.values.isEmpty && m.apparent_power.values.isEmpty &&
  m.active_power.values.isEmpty && m.reactive_power.values.isEmpty &&
  m.power_factor.values.isEmpty && m.dc_offset_current.values.isEmpty &&
  m.dc_offset_voltage.values.isEmpty

/-- Both phases of a registry entry hold no samples at all. -/
def ConjoinedMeasurements.allEmpty (cm : ConjoinedMeasurements) : Bool :=
  cm.phase_a.allEmpty && cm.phase_b.allEmpty

/-- Apply a sequence of phase calculations to one channel set, stopping with
`none` at the first panic.  This is the life of one `MeasurementBuckets`
across frames. -/
def MeasurementBuckets.applyAll (m : MeasurementBuckets) :
    List CompositeCalculations → Option MeasurementBuckets
  | [] => some m
  | c :: rest =>
      match m.apply c with
      | none => none
      | some m' => m'.applyAll rest

/-- A fully populated two-phase payload used as a concrete test input. -/
def sampleCalc : CompositeCalculations :=
  ⟨some ⟨1, 2⟩, some ⟨3, 4⟩, some ⟨5, 6, 7, 8⟩⟩

/-- A phase payload whose `power_calculations` sub-message is missing. -/
def noPowerCalc : CompositeCalculations :=
  ⟨some ⟨1, 2⟩, some ⟨3, 4⟩, none⟩

/-- A two-phase payload with both phases fully populated. -/
def sampleTwoPhase : CompositeTwoPhaseCalculations :=
  ⟨some sampleCalc, some sampleCalc⟩

/-- A well-formed entry as a concrete test input. -/
def sampleEntry : Composite :=
  ⟨some "stream-2", some (DataProduct.calculations sampleTwoPhase)⟩

/-- An entry whose two-phase payload is missing `phase_a`. -/
def missingPhaseEntry : Composite :=
  ⟨some "stream-1", some (DataProduct.calculations ⟨none, some sampleCalc⟩)⟩

/-- An entry whose phase payloads are present but lack `power_calculations`. -/
def missingPowerEntry : Composite :=
  ⟨some "stream-3",
   some (DataProduct.calculations ⟨some noPowerCalc, some noPowerCalc⟩)⟩

/-- A two-phase entry carrying the given phase-A/phase-B real and reactive
powers (waveform channels zeroed). -/
def powerEntry (n : String) (ra qa rb qb : ℚ) : Composite :=
  ⟨some n, some (DataProduct.calculations
    ⟨some ⟨some ⟨0, 0⟩, some ⟨0, 0⟩, some ⟨ra, 0, qa, 0⟩⟩,
     some ⟨some ⟨0, 0⟩, some ⟨0, 0⟩, some ⟨rb, 0, qb, 0⟩⟩⟩)⟩

/-!
## Supporting lemmas
-/

theorem Bucket.apply_cap (b : Bucket) (v : ℚ) : (b.apply v).cap = b.cap := by
  unfold Bucket.apply
  split <;> rfl

theorem Bucket.pushAll_cap (b : Bucket) (vs : List ℚ) :
    (b.pushAll vs).cap = b.cap := by
  induction vs generalizing b with
  | nil => rfl
  | cons v vs ih =>
      show ((b.apply v).pushAll vs).cap = b.cap
      rw [ih, Bucket.apply_cap]

/-- The sliding-window characterisation of `pushAll`: the retained samples are
the suffix of `old ++ new` that fits in the capacity. -/
theorem Bucket.pushAll_values (vs : List ℚ) (b : Bucket)
    (hcap : 1 ≤ b.cap) (h : b.values.length ≤ b.cap) :
    (b.pushAll vs).values =
      (b.values ++ vs).drop (b.values.length + vs.length - b.cap) := by
  induction vs generalizing b with
  | nil => simp [Bucket.pushAll, Nat.sub_eq_zero_of_le h]
  | cons v vs ih =>
      show ((b.apply v).pushAll vs).values = _
      rcases Nat.lt_or_ge b.values.length b.cap with hlt | hge
      · have happ : b.apply v = ⟨b.cap, b.values ++ [v]⟩ := by
          unfold Bucket.apply
          rw [if_neg (by omega)]
        rw [happ]
        have := ih ⟨b.cap, b.values ++ [v]⟩ hcap
          (by simp only [List.length_append, List.length_cons,
            List.length_nil]; omega)
        simp only at this
        rw [this]
        simp only [List.length_append, List.length_cons, List.length_nil,
          List.append_assoc, List.singleton_append]
        congr 1
        omega
      · have hfull : b.values.length = b.cap := le_antisymm h hge
        have happ : b.apply v = ⟨b.cap, b.values.tail ++ [v]⟩ := by
          unfold Bucket.apply
          rw [if_pos hfull]
        rw [happ]
        have htl : (b.values.tail ++ [v]).length ≤ b.cap := by
          simp only [List.length_append, List.length_tail, List.length_cons,
            List.length_nil]
          omega
        have := ih ⟨b.cap, b.values.tail ++ [v]⟩ hcap htl
        simp only at this
        rw [this]
        obtain ⟨w, tl, hw⟩ : ∃ w tl, b.values = w :: tl := by
          cases hv : b.values with
          | nil => rw [hv] at hfull; simp at hfull; omega
          | cons w tl => exact ⟨w, tl, rfl⟩
        rw [hw] at hfull ⊢
        simp only [List.tail_cons, List.length_append, List.length_cons,
          List.length_nil, List.cons_append, List.append_assoc,
          List.singleton_append]
        simp only [List.length_cons] at hfull
        rw [show tl.length + 1 + (vs.length + 1) - b.cap
              = (tl.length + 1 + vs.length - b.cap) + 1 by omega,
          List.drop_succ_cons]
        simp

theorem Bucket.pushAll_length_le (vs : List ℚ) (b : Bucket)
    (hcap : 1 ≤ b.cap) (h : b.values.length ≤ b.cap) :
    (b.pushAll vs).values.length ≤ b.cap := by
  rw [Bucket.pushAll_values vs b hcap h]
  simp only [List.length_drop, List.length_append]
  omega

theorem alookup_ainsert_self {β : Type} (l : List (String × β)) (k : String)
    (v : β) : alookup (ainsert l k v) k = some v := by
  induction l with
  | nil => simp [ainsert, alookup]
  | cons p rest ih =>
      obtain ⟨k', w⟩ := p
      by_cases h : k' = k
      · simp [ainsert, alookup, h]
      · simp [ainsert, alookup, h, ih]

theorem ainsert_keys {β : Type} (l : List (String × β)) (k : String) (v : β) :
    (ainsert l k v).map Prod.fst =
      if k ∈ l.map Prod.fst then l.map Prod.fst
      else l.map Prod.fst ++ [k] := by
  induction l with
  | nil => simp [ainsert]
  | cons p rest ih =>
      obtain ⟨k', w⟩ := p
      by_cases h : k' = k
      · subst h
        simp [ainsert]
      · by_cases hm : k ∈ rest.map Prod.fst
        · simp [ainsert, h, ih, hm, Ne.symm h]
        · simp [ainsert, h, ih, hm, Ne.symm h]

theorem alookup_eq_none_iff {β : Type} (l : List (String × β)) (k : String) :
    alookup l k = none ↔ k ∉ l.map Prod.fst := by
  induction l with
  | nil => simp [alookup]
  | cons p rest ih =>
      obtain ⟨k', w⟩ := p
      by_cases h : k' = k
      · simp [alookup, h]
      · simp [alookup, h, ih, Ne.symm h]

theorem MeasurementBuckets.apply_some_of_wf (m : MeasurementBuckets)
    (c : CompositeCalculations) (h : wfCalc c = true) :
    ∃ m', m.apply c = some m' := by
  obtain ⟨cw, vw, pw⟩ := c
  simp only [wfCalc, Bool.and_eq_true, Option.isSome_iff_exists] at h
  obtain ⟨⟨⟨cw', hcw⟩, vw', hvw⟩, pw', hpw⟩ := h
  subst hcw; subst hvw; subst hpw
  exact ⟨_, rfl⟩

theorem ConjoinedMeasurements.apply_some_two_phase (cm : ConjoinedMeasurements)
    (pa pb : CompositeCalculations) (ha : wfCalc pa = true)
    (hb : wfCalc pb = true) :
    ∃ cm', cm.apply ⟨some pa, some pb⟩ = some cm' := by
  obtain ⟨a', ha'⟩ := cm.phase_a.apply_some_of_wf pa ha
  obtain ⟨b', hb'⟩ := cm.phase_b.apply_some_of_wf pb hb
  exact ⟨⟨a', b'⟩, by simp [ConjoinedMeasurements.apply, ha', hb']⟩

theorem MeasurementBuckets.apply_active_eq_real (m m' : MeasurementBuckets)
    (c : CompositeCalculations) (h : m.apply c = some m')
    (heq : m.active_power = m.real_power) :
    m'.active_power = m'.real_power := by
  obtain ⟨cw, vw, pw⟩ := c
  cases cw with
  | none => simp [MeasurementBuckets.apply] at h
  | some cw =>
      cases vw with
      | none => simp [MeasurementBuckets.apply] at h
      | some vw =>
          cases pw with
          | none => simp [MeasurementBuckets.apply] at h
          | some pw =>
              have h' : m' = MeasurementBuckets.mk
                  (m.real_power.apply pw.real_power_w)
                  (m.rms_current.apply cw.rms)
                  (m.rms_voltage.apply vw.rms)
                  (m.apparent_power.apply pw.apparent_power_va)
                  (m.active_power.apply pw.real_power_w)
                  (m.reactive_power.apply pw.reactive_power_var)
                  (m.power_factor.apply pw.power_factor)
                  (m.dc_offset_current.apply cw.dc_offset)
                  (m.dc_offset_voltage.apply vw.dc_offset) :=
                (Option.some.inj h).symm
              rw [h']
              simp [heq]

theorem processEntry_wf (e : Composite) (he : wfEntry e = true)
    (ms : AllMeasurements) (s : FrameSums) :
    ∃ ms2, processEntry ms s e = some (ms2,
      ⟨s.active_a + entryRealA e, s.reactive_a + entryReactiveA e,
       s.active_b + entryRealB e, s.reactive_b + entryReactiveB e⟩) := by
  obtain ⟨n, dp⟩ := e
  cases n with
  | none => simp [wfEntry] at he
  | some n =>
      cases dp with
      | none => simp [wfEntry] at he
      | some dp =>
          cases dp with
          | other => simp [wfEntry] at he
          | calculations tc =>
              obtain ⟨pa, pb⟩ := tc
              cases pa with
              | none => simp [wfEntry] at he
              | some pa =>
                  cases pb with
                  | none => simp [wfEntry] at he
                  | some pb =>
                      simp only [wfEntry, Option.isSome_some, Bool.true_and,
                        Bool.and_eq_true] at he
                      obtain ⟨hwa, hwb⟩ := he
                      obtain ⟨cmX, hcm⟩ :=
                        ((alookup ms.data n).getD
                          ConjoinedMeasurements.default).apply_some_two_phase pa pb hwa hwb
                      obtain ⟨pwa, hpwa⟩ : ∃ pwa,
                          pa.power_calculations = some pwa := by
                        have := hwa
                        simp only [wfCalc, Bool.and_eq_true,
                          Option.isSome_iff_exists] at this
                        exact this.2
                      obtain ⟨pwb, hpwb⟩ : ∃ pwb,
                          pb.power_calculations = some pwb := by
                        have := hwb
                        simp only [wfCalc, Bool.and_eq_true,
                          Option.isSome_iff_exists] at this
                        exact this.2
                      refine ⟨((AllMeasurements.mk
                        (ainsert ms.data n cmX)).update n).1, ?_⟩
                      simp [processEntry, AllMeasurements.apply, hcm, hpwa,
                        hpwb, entryRealA, entryReactiveA, entryRealB,
                        entryReactiveB]

theorem foldEntries_wf (entries : List Composite)
    (h : ∀ e ∈ entries, wfEntry e = true) :
    ∀ (ms : AllMeasurements) (s : FrameSums),
    ∃ ms', List.foldlM (fun (p : AllMeasurements × FrameSums) c =>
        processEntry p.1 p.2 c) (ms, s) entries
      = some (ms', ⟨s.active_a + frameRealA entries,
                    s.reactive_a + frameReactiveA entries,
                    s.active_b + frameRealB entries,
                    s.reactive_b + frameReactiveB entries⟩) := by
  induction entries with
  | nil =>
      intro ms s
      refine ⟨ms, ?_⟩
      obtain ⟨a, b, c, d⟩ := s
      simp [List.foldlM, frameRealA, frameReactiveA, frameRealB,
        frameReactiveB]
  | cons e rest ih =>
      intro ms s
      have he : wfEntry e = true := h e (List.mem_cons_self e rest)
      obtain ⟨ms2, hstep⟩ := processEntry_wf e he ms s
      obtain ⟨ms', hrest⟩ :=
        ih (fun e' he' => h e' (List.mem_cons_of_mem e he')) ms2
          ⟨s.active_a + entryRealA e, s.reactive_a + entryReactiveA e,
           s.active_b + entryRealB e, s.reactive_b + entryReactiveB e⟩
      refine ⟨ms', ?_⟩
      rw [List.foldlM_cons]
      rw [hstep]
      have hb : ∀ (x : AllMeasurements × FrameSums)
          (f : AllMeasurements × FrameSums →
            Option (AllMeasurements × FrameSums)),
          (some x >>= f) = f x := fun x f => rfl
      rw [hb]
      rw [hrest]
      simp [frameRealA, frameReactiveA, frameRealB, frameReactiveB, add_assoc]

theorem apply_and_update_keys (tp : AllThreePhase) (sub : String)
    (a b c d : ℚ)
    (h : tp.map.map Prod.fst = [] ∨ tp.map.map Prod.fst = [sub]) :
    (tp.apply_and_update sub a b c d).map.map Prod.fst = [sub] := by
  unfold AllThreePhase.apply_and_update
  simp only
  rw [ainsert_keys]
  rcases h with h | h <;> rw [h] <;> simp

theorem processFrame_snd (sub : String) (ms : AllMeasurements)
    (tp : AllThreePhase) (f : List Composite)
    (r : AllMeasurements × AllThreePhase)
    (h : processFrame sub ms tp f = some r) :
    ∃ a b c d, r.2 = tp.apply_and_update sub a b c d := by
  unfold processFrame at h
  cases hq : List.foldlM (fun (p : AllMeasurements × FrameSums) c =>
      processEntry p.1 p.2 c) (ms, FrameSums.zero) f with
  | none => rw [hq] at h; simp at h
  | some q =>
      rw [hq] at h
      have h' : (q.1, tp.apply_and_update sub q.2.active_a q.2.reactive_a
          q.2.active_b q.2.reactive_b) = r := Option.some.inj h
      exact ⟨q.2.active_a, q.2.reactive_a, q.2.active_b, q.2.reactive_b,
        by rw [← h']⟩

theorem processFrames_keys_inv (sub : String)
    (frames : List (List Composite)) :
    ∀ (ms : AllMeasurements) (tp : AllThreePhase)
      (ms' : AllMeasurements) (tp' : AllThreePhase),
    tp.map.map Prod.fst = [sub] →
    processFrames sub ms tp frames = some (ms', tp') →
    tp'.map.map Prod.fst = [sub] := by
  induction frames with
  | nil =>
      intro ms tp ms' tp' hk h
      simp only [processFrames, Option.some_inj, Prod.mk.injEq] at h
      rw [← h.2]
      exact hk
  | cons f rest ih =>
      intro ms tp ms' tp' hk h
      simp only [processFrames] at h
      cases hx : processFrame sub ms tp f with
      | none => rw [hx] at h; simp at h
      | some r =>
          rw [hx] at h
          have h2 : processFrames sub r.1 r.2 rest = some (ms', tp') := h
          obtain ⟨a, b, c, d, hr⟩ := processFrame_snd sub ms tp f r hx
          have hk2 : r.2.map.map Prod.fst = [sub] := by
            rw [hr]
            exact apply_and_update_keys tp sub a b c d (Or.inr hk)
          exact ih r.1 r.2 ms' tp' hk2 h2

/-!
## Claims
-/

/-- C3: pushing `capacity + k` values (k ≥ 1) into an empty bucket of
positive capacity retains exactly `capacity` values, evicts the oldest `k`,
preserves insertion order, and the retained length never exceeds the
capacity after any sequence of pushes. -/
theorem claim_bucket_eviction (cap k : ℕ) (vs : List ℚ)
    (hcap : 1 ≤ cap) (hk : 1 ≤ k) (hlen : vs.length = cap + k) :
    ((Bucket.mkEmpty cap).pushAll vs).values = vs.drop k ∧
    ((Bucket.mkEmpty cap).pushAll vs).values.length = cap ∧
    ∀ ws : List ℚ, ((Bucket.mkEmpty cap).pushAll ws).values.length ≤ cap := by
  have h0 : (Bucket.mkEmpty cap).values.length ≤ (Bucket.mkEmpty cap).cap := by
    simp [Bucket.mkEmpty]
  have hv := Bucket.pushAll_values vs (Bucket.mkEmpty cap) hcap h0
  have hdrop : (Bucket.mkEmpty cap).values.length + vs.length
      - (Bucket.mkEmpty cap).cap = k := by
    simp only [Bucket.mkEmpty]
    simp only [List.length_nil]
    omega
  have hmain : ((Bucket.mkEmpty cap).pushAll vs).values = vs.drop k := by
    rw [hv, hdrop]
    simp [Bucket.mkEmpty]
  refine ⟨hmain, ?_, fun ws => Bucket.pushAll_length_le ws (Bucket.mkEmpty cap)
    hcap h0⟩
  rw [hmain]
  simp only [List.length_drop]
  omega

/-- Witness for C3: capacity 3, pushes `[1,2,3,4,5]` — window `[3,4,5]`,
`peak = 5`, `trough = 3`, `average = 4`, `latest = 5`. -/
theorem claim_bucket_eviction_witness :
    ((Bucket.mkEmpty 3).pushAll [1, 2, 3, 4, 5]).values = [3, 4, 5] ∧
    ((Bucket.mkEmpty 3).pushAll [1, 2, 3, 4, 5]).peak = FVal.fin 5 ∧
    ((Bucket.mkEmpty 3).pushAll [1, 2, 3, 4, 5]).trough = FVal.fin 3 ∧
    ((Bucket.mkEmpty 3).pushAll [1, 2, 3, 4, 5]).average = FVal.fin 4 ∧
    ((Bucket.mkEmpty 3).pushAll [1, 2, 3, 4, 5]).latest = 5 := by
  have h := claim_bucket_eviction 3 2 [1, 2, 3, 4, 5] (by decide) (by decide)
    (by decide)
  refine ⟨h.1, ?_, ?_, ?_, ?_⟩ <;>
    norm_num [Bucket.peak, Bucket.trough, Bucket.average, Bucket.latest,
      h.1, fdiv, f64MIN, f64MAX]

/-- C4 counterexample: a never-pushed bucket's `peak()` is the finite
sentinel `f64::MIN`, not negative infinity, and its `trough()` is `f64::MAX`,
not positive infinity. -/
theorem claim_empty_peak_not_neg_infinity :
    Bucket.default.peak ≠ FVal.ninf ∧ Bucket.default.trough ≠ FVal.pinf := by
  constructor <;>
    simp [Bucket.default, Bucket.mkEmpty, Bucket.peak, Bucket.trough]

/-- C4 amended: on a never-pushed bucket, `peak()` returns the finite
sentinel `f64::MIN`, `trough()` returns `f64::MAX`, and `average()` is NaN
(`0.0/0.0`) — never a silent `0` and, all reducers being total, never a
crash. -/
theorem claim_empty_bucket_sentinels (cap : ℕ) :
    (Bucket.mkEmpty cap).peak = FVal.fin f64MIN ∧
    (Bucket.mkEmpty cap).trough = FVal.fin f64MAX ∧
    (Bucket.mkEmpty cap).average = FVal.nan ∧
    (Bucket.mkEmpty cap).average ≠ FVal.fin 0 := by
  refine ⟨rfl, rfl, ?_, ?_⟩ <;> simp [Bucket.mkEmpty, Bucket.average, fdiv]

/-- C10: a never-pushed bucket's `latest()` is the silent zero `0.0`
(`unwrap_or_default`), indistinguishable from a genuinely measured zero
sample, while after any push `latest()` is the value just pushed. -/
theorem claim_latest_silent_zero (cap : ℕ) :
    (Bucket.mkEmpty cap).latest = 0 ∧
    (∀ (b : Bucket) (v : ℚ), (b.apply v).latest = v) ∧
    ((Bucket.mkEmpty cap).apply 0).latest = (Bucket.mkEmpty cap).latest := by
  have hpush : ∀ (b : Bucket) (v : ℚ), (b.apply v).latest = v := by
    intro b v
    unfold Bucket.apply Bucket.latest
    split <;> simp
  exact ⟨rfl, hpush, by rw [hpush]; rfl⟩

/-- C7: `AllMeasurements::apply` with a non-two-phase data product returns
with the registry state unchanged — every existing channel set's bucket
contents are untouched. -/
theorem claim_unknown_variant_noop (ms : AllMeasurements) (name : String) :
    AllMeasurements.apply ms name DataProduct.other = some ms := rfl

/-- C1 (evaluating the code at the failing inputs): an entry whose two-phase
payload is missing `phase_a`, or missing `power_calculations`, makes the
whole frame-processing step panic (`none`) — the entry is not skipped, the
rest of the frame is never processed, and the process aborts.  This
contradicts the claim's required skip-and-continue behaviour; the spec
itself flags the abort as a legacy defect. -/
theorem claim_malformed_entry_crashes_process :
    ConjoinedMeasurements.default.apply ⟨none, some sampleCalc⟩ = none ∧
    processFrame "topic" AllMeasurements.new AllThreePhase.default
      [missingPhaseEntry, sampleEntry] = none ∧
    processFrame "topic" AllMeasurements.new AllThreePhase.default
      [missingPowerEntry] = none := by
  refine ⟨rfl, rfl, rfl⟩

/-- C8: `AllMeasurements::update` on a never-applied stream name inserts an
empty, never-populated entry for that name and exports no statistics in that
call. -/
theorem claim_update_miss_creates_empty_entry (ms : AllMeasurements)
    (name : String) (hmiss : alookup ms.data name = none) :
    (ms.update name).2 = none ∧
    alookup (ms.update name).1.data name
      = some ConjoinedMeasurements.default ∧
    ConjoinedMeasurements.default.allEmpty = true := by
  have hu : ms.update name
      = (⟨ainsert ms.data name ConjoinedMeasurements.default⟩, none) := by
    unfold AllMeasurements.update
    rw [hmiss]
  rw [hu]
  exact ⟨rfl, alookup_ainsert_self ms.data name ConjoinedMeasurements.default,
    rfl⟩

/-- Witness for C8 at the empty registry and stream name `s`. -/
theorem claim_update_miss_creates_empty_entry_witness :
    (AllMeasurements.new.update "s").2 = none ∧
    alookup (AllMeasurements.new.update "s").1.data "s"
      = some ConjoinedMeasurements.default ∧
    ConjoinedMeasurements.default.allEmpty = true :=
  claim_update_miss_creates_empty_entry AllMeasurements.new "s" rfl

/-- C5: `apply` with a two-phase payload lazily creates exactly one new
(phase A, phase B) channel-set pair for an unseen name, mutates the existing
pair (no duplicate) for a seen name, and neither `apply` nor `update` ever
removes a registry entry — the set of stream names only grows. -/
theorem claim_registry_lazy_creation (ms : AllMeasurements) (name : String)
    (tc : CompositeTwoPhaseCalculations) :
    (∀ ms', alookup ms.data name = none →
      AllMeasurements.apply ms name (DataProduct.calculations tc) = some ms' →
      ms'.names = ms.names ++ [name] ∧
      ∃ cm', ConjoinedMeasurements.default.apply tc = some cm' ∧
        alookup ms'.data name = some cm') ∧
    (∀ cm ms', alookup ms.data name = some cm →
      AllMeasurements.apply ms name (DataProduct.calculations tc) = some ms' →
      ms'.names = ms.names ∧
      ∃ cm', cm.apply tc = some cm' ∧ alookup ms'.data name = some cm') ∧
    (∀ (product : DataProduct) ms',
      AllMeasurements.apply ms name product = some ms' →
      ∀ n, n ∈ ms.names → n ∈ ms'.names) ∧
    (∀ n, n ∈ ms.names → n ∈ (ms.update name).1.names) := by
  refine ⟨?_, ?_, ?_, ?_⟩
  · intro ms' hmiss hsucc
    simp only [AllMeasurements.apply] at hsucc
    rw [hmiss] at hsucc
    simp only [Option.getD_none] at hsucc
    cases hcm : ConjoinedMeasurements.default.apply tc with
    | none => rw [hcm] at hsucc; simp at hsucc
    | some cm' =>
        rw [hcm] at hsucc
        have hms' : ms' = ⟨ainsert ms.data name cm'⟩ :=
          (Option.some.inj hsucc).symm
        subst hms'
        constructor
        · show (ainsert ms.data name cm').map Prod.fst
            = ms.data.map Prod.fst ++ [name]
          rw [ainsert_keys,
            if_neg ((alookup_eq_none_iff ms.data name).mp hmiss)]
        · exact ⟨cm', rfl, alookup_ainsert_self ms.data name cm'⟩
  · intro cm ms' hhit hsucc
    simp only [AllMeasurements.apply] at hsucc
    rw [hhit] at hsucc
    simp only [Option.getD_some] at hsucc
    cases hcm : cm.apply tc with
    | none => rw [hcm] at hsucc; simp at hsucc
    | some cm' =>
        rw [hcm] at hsucc
        have hms' : ms' = ⟨ainsert ms.data name cm'⟩ :=
          (Option.some.inj hsucc).symm
        subst hms'
        have hmem : name ∈ ms.data.map Prod.fst := by
          by_contra hn
          rw [(alookup_eq_none_iff ms.data name).mpr hn] at hhit
          simp at hhit
        constructor
        · show (ainsert ms.data name cm').map Prod.fst = ms.data.map Prod.fst
          rw [ainsert_keys, if_pos hmem]
        · exact ⟨cm', rfl, alookup_ainsert_self ms.data name cm'⟩
  · intro product ms' hsucc n hn
    cases product with
    | other =>
        have hid : ms' = ms := by
          simp only [AllMeasurements.apply] at hsucc
          exact (Option.some.inj hsucc).symm
        rw [hid]
        exact hn
    | calculations tc' =>
        simp only [AllMeasurements.apply] at hsucc
        cases hcm : ((alookup ms.data name).getD
            ConjoinedMeasurements.default).apply tc' with
        | none => rw [hcm] at hsucc; simp at hsucc
        | some cm' =>
            rw [hcm] at hsucc
            have hms' : ms' = ⟨ainsert ms.data name cm'⟩ :=
              (Option.some.inj hsucc).symm
            subst hms'
            show n ∈ (ainsert ms.data name cm').map Prod.fst
            rw [ainsert_keys]
            split
            · exact hn
            · exact List.mem_append_left _ hn
  · intro n hn
    cases h : alookup ms.data name with
    | none =>
        have hu : (ms.update name).1
            = ⟨ainsert ms.data name ConjoinedMeasurements.default⟩ := by
          unfold AllMeasurements.update
          rw [h]
        rw [hu]
        show n ∈ (ainsert ms.data name ConjoinedMeasurements.default).map
          Prod.fst
        rw [ainsert_keys]
        split
        · exact hn
        · exact List.mem_append_left _ hn
    | some cm =>
        have hu : (ms.update name).1 = ms := by
          unfold AllMeasurements.update
          rw [h]
        rw [hu]
        exact hn

/-- Witness for C5: applying a fully populated two-phase payload for the
unseen name `s` to the empty registry yields exactly the name list `[s]`. -/
theorem claim_registry_lazy_creation_witness :
    ((AllMeasurements.apply AllMeasurements.new "s"
      (DataProduct.calculations sampleTwoPhase)).getD
        AllMeasurements.new).names = ["s"] := by
  cases hx : AllMeasurements.apply AllMeasurements.new "s"
      (DataProduct.calculations sampleTwoPhase) with
  | none => exact absurd hx (by decide)
  | some msW =>
      have h := (claim_registry_lazy_creation AllMeasurements.new "s"
        sampleTwoPhase).1 msW rfl hx
      simpa using h.1

/-- C9: along any panic-free sequence of channel-set applies starting from a
fresh channel set, the `active_power` bucket always equals the `real_power`
bucket — the derived alias is defined identically to `real_power`. -/
theorem claim_active_power_mirrors_real_power
    (cs : List CompositeCalculations) (mb : MeasurementBuckets)
    (h : MeasurementBuckets.default.applyAll cs = some mb) :
    mb.active_power = mb.real_power ∧
    mb.active_power.values = mb.real_power.values := by
  suffices hgen : ∀ (cs' : List CompositeCalculations)
      (m mb' : MeasurementBuckets), m.active_power = m.real_power →
      m.applyAll cs' = some mb' → mb'.active_power = mb'.real_power by
    have hfin := hgen cs MeasurementBuckets.default mb rfl h
    exact ⟨hfin, by rw [hfin]⟩
  intro cs'
  induction cs' with
  | nil =>
      intro m mb' hm h'
      simp only [MeasurementBuckets.applyAll, Option.some_inj] at h'
      rw [← h']
      exact hm
  | cons c rest ih =>
      intro m mb' hm h'
      simp only [MeasurementBuckets.applyAll] at h'
      cases hx : m.apply c with
      | none => rw [hx] at h'; simp at h'
      | some m2 =>
          rw [hx] at h'
          exact ih m2 mb'
            (MeasurementBuckets.apply_active_eq_real m m2 c hx hm) h'

/-- Witness for C9 after one concrete apply. -/
theorem claim_active_power_mirrors_real_power_witness :
    ((MeasurementBuckets.default.applyAll [sampleCalc]).getD
      MeasurementBuckets.default).active_power.values
    = ((MeasurementBuckets.default.applyAll [sampleCalc]).getD
      MeasurementBuckets.default).real_power.values := by
  cases hx : MeasurementBuckets.default.applyAll [sampleCalc] with
  | none => exact absurd hx (by decide)
  | some mb =>
      have h := claim_active_power_mirrors_real_power [sampleCalc] mb hx
      simpa using h.2

/-- C2: for a frame whose entries are all fully populated two-phase entries,
`listen`'s frame step succeeds and performs exactly one
`apply_and_update` on the rollup: each of the four rollup buckets receives
a single push of the frame-wide sum of that phase's real (resp. reactive)
power over all entries. -/
theorem claim_three_phase_single_push_per_frame (sub : String)
    (ms : AllMeasurements) (tp : AllThreePhase) (entries : List Composite)
    (hwf : ∀ e ∈ entries, wfEntry e = true) :
    ∃ ms',
      processFrame sub ms tp entries = some (ms',
        tp.apply_and_update sub (frameRealA entries) (frameReactiveA entries)
          (frameRealB entries) (frameReactiveB entries)) ∧
      alookup (tp.apply_and_update sub (frameRealA entries)
          (frameReactiveA entries) (frameRealB entries)
          (frameReactiveB entries)).map sub
        = some (((alookup tp.map sub).getD ThreePhaseMeasurements.default).apply
            (frameRealA entries) (frameReactiveA entries)
            (frameRealB entries) (frameReactiveB entries)) := by
  obtain ⟨ms', hfold⟩ := foldEntries_wf entries hwf ms FrameSums.zero
  refine ⟨ms', ?_, ?_⟩
  · unfold processFrame
    rw [hfold]
    show some (ms', tp.apply_and_update sub
      (FrameSums.zero.active_a + frameRealA entries)
      (FrameSums.zero.reactive_a + frameReactiveA entries)
      (FrameSums.zero.active_b + frameRealB entries)
      (FrameSums.zero.reactive_b + frameReactiveB entries)) = _
    norm_num [FrameSums.zero]
  · exact alookup_ainsert_self tp.map sub _

/-- Witness for C2 at the spec's example: two entries with phase-A real
powers 100 and 50 and phase-B real powers 10 and 5 (reactive powers 1, 3 and
2, 4) — a single push of 150 into `real_a`, 15 into `real_b`, 4 into
`reactive_a`, 6 into `reactive_b`. -/
theorem claim_three_phase_single_push_per_frame_witness :
    ((processFrame "topic" AllMeasurements.new AllThreePhase.default
        [powerEntry "s1" 100 1 10 2, powerEntry "s2" 50 3 5 4]).map
      (fun p => (alookup p.2.map "topic").map
        (fun m => (m.three_phase_real_a.values, m.three_phase_real_b.values,
          m.three_phase_reactive_a.values,
          m.three_phase_reactive_b.values))))
    = some (some ([150], [15], [4], [6])) := by
  obtain ⟨ms', hp, hl⟩ := claim_three_phase_single_push_per_frame "topic"
    AllMeasurements.new AllThreePhase.default
    [powerEntry "s1" 100 1 10 2, powerEntry "s2" 50 3 5 4] (by decide)
  rw [hp]
  simp only [Option.map_some']
  rw [hl]
  norm_num [AllThreePhase.default, ThreePhaseMeasurements.default,
    ThreePhaseMeasurements.apply, Bucket.default, Bucket.mkEmpty,
    Bucket.apply, alookup, frameRealA, frameReactiveA, frameRealB,
    frameReactiveB, entryRealA, entryReactiveA, entryRealB, entryReactiveB,
    powerEntry]

/-- C6: the three-phase rollup map is keyed by the ingest subscription's
topic identifier: whatever mix of stream names the frames carry, every
rollup key produced by the listen loop is the configured topic, and after at
least one frame the rollup map holds exactly that single series. -/
theorem claim_rollup_keyed_by_subscription_topic (sub : String)
    (frames : List (List Composite)) (ms' : AllMeasurements)
    (tp' : AllThreePhase)
    (h : processFrames sub AllMeasurements.new AllThreePhase.default frames
      = some (ms', tp')) :
    (∀ k ∈ tp'.map.map Prod.fst, k = sub) ∧
    (frames ≠ [] → tp'.map.map Prod.fst = [sub]) := by
  cases frames with
  | nil =>
      simp only [processFrames, Option.some_inj, Prod.mk.injEq] at h
      constructor
      · intro k hk
        rw [← h.2] at hk
        simp [AllThreePhase.default] at hk
      · intro hne
        exact absurd rfl hne
  | cons f rest =>
      simp only [processFrames] at h
      cases hx : processFrame sub AllMeasurements.new AllThreePhase.default
          f with
      | none => rw [hx] at h; simp at h
      | some r =>
          rw [hx] at h
          have h2 : processFrames sub r.1 r.2 rest = some (ms', tp') := h
          obtain ⟨a, b, c, d, hr⟩ := processFrame_snd sub _ _ f r hx
          have hk2 : r.2.map.map Prod.fst = [sub] := by
            rw [hr]
            exact apply_and_update_keys _ sub a b c d (Or.inl rfl)
          have hfin := processFrames_keys_inv sub rest r.1 r.2 ms' tp'
            hk2 h2
          refine ⟨fun k hk => ?_, fun _ => hfin⟩
          rw [hfin] at hk
          simpa using hk

/-- Witness for C6: one frame with stream name `s1` on subscription topic
`topic` — the rollup map's only key is `topic`. -/
theorem claim_rollup_keyed_by_subscription_topic_witness :
    ((processFrames "topic" AllMeasurements.new AllThreePhase.default
        [[powerEntry "s1" 100 1 10 2]]).map
      (fun p => p.2.map.map Prod.fst)) = some ["topic"] := by
  cases hx : processFrames "topic" AllMeasurements.new AllThreePhase.default
      [[powerEntry "s1" 100 1 10 2]] with
  | none => exact absurd hx (by decide)
  | some p =>
      have h := claim_rollup_keyed_by_subscription_topic "topic"
        [[powerEntry "s1" 100 1 10 2]] p.1 p.2 (by rw [hx])
      simp only [Option.map_some']
      rw [h.2 (by simp)]
